import Mathlib

/-!
Verification development for the allocation-normalization engine of the
investment-portfolio repository.  The Python sources
`src/models/allocation.py`, `src/models/portfolio.py` and
`src/models/node.py` are shallowly embedded below: Python dicts become
insertion-ordered association lists, Python sets become duplicate-free
string lists, and floating-point values are idealized as exact rationals
(the spec describes the arithmetic at this level of abstraction; the
0.01 / 0.1 tolerances and the decimal roundings are modelled exactly).
-/

set_option maxRecDepth 8000

namespace Portfolio

/-- An insertion-ordered map from child name to percentage value,
modelling `self.allocations : dict[str, float]`. -/
abbrev Alloc := List (String × ℚ)

/-- Python `d.get(k)`: the value at the first (unique) occurrence of `k`. -/
def lookupQ : Alloc → String → Option ℚ
  | [], _ => none
  | (k2, v) :: rest, k => if k = k2 then some v else lookupQ rest k

/-- Python `d.get(k, dflt)`. -/
def getD (a : Alloc) (k : String) (d : ℚ) : ℚ :=
  (lookupQ a k).getD d

/-- Python `k in d`. -/
def hasKey (a : Alloc) (k : String) : Bool :=
  (lookupQ a k).isSome

/-- Python `list(d.keys())` in insertion order. -/
def keys (a : Alloc) : List String :=
  a.map Prod.fst

/-- Python `d[k] = v`: overwrite in place when present, append when absent. -/
def setval (a : Alloc) (k : String) (v : ℚ) : Alloc :=
  match a with
  | [] => [(k, v)]
  | (k2, v2) :: rest =>
    if k = k2 then (k, v) :: rest else (k2, v2) :: setval rest k v

/-!
Exact-rational arithmetic.  Lean 4.14's core `Rat.add`, `Rat.sub`,
`Rat.mul`, `Rat.inv` and `Rat.div` are `@[irreducible]`, so terms built
from them do not evaluate inside `decide` proofs.  The embedding
therefore computes with the `mkRat`-based forms below, and bridge
lemmas (`qadd_eq` …) identify them with the ordinary field operations
for the abstract proofs.
-/

/-- Addition on ℚ in a kernel-computable form. -/
def qadd (x y : ℚ) : ℚ :=
  mkRat (x.num * (y.den : ℤ) + y.num * (x.den : ℤ)) (x.den * y.den)

/-- Subtraction on ℚ in a kernel-computable form. -/
def qsub (x y : ℚ) : ℚ :=
  qadd x (-y)

/-- Multiplication on ℚ in a kernel-computable form. -/
def qmul (x y : ℚ) : ℚ :=
  mkRat (x.num * y.num) (x.den * y.den)

/-- Inverse on ℚ in a kernel-computable form. -/
def qinv (y : ℚ) : ℚ :=
  Rat.divInt (y.den : ℤ) y.num

/-- Division on ℚ in a kernel-computable form. -/
def qdiv (x y : ℚ) : ℚ :=
  qmul x (qinv y)

/-- Summation on ℚ in a kernel-computable form. -/
def qsum (l : List ℚ) : ℚ :=
  l.foldr qadd 0

theorem qadd_eq (x y : ℚ) : qadd x y = x + y := by
  have hx : ((x.den : ℚ)) ≠ 0 := by
    exact_mod_cast x.den_ne_zero
  have hy : ((y.den : ℚ)) ≠ 0 := by
    exact_mod_cast y.den_ne_zero
  rw [qadd, Rat.mkRat_eq_div]
  push_cast
  conv_rhs => rw [← Rat.num_div_den x, ← Rat.num_div_den y]
  rw [div_add_div _ _ hx hy]
  ring_nf

theorem qsub_eq (x y : ℚ) : qsub x y = x - y := by
  rw [qsub, qadd_eq, sub_eq_add_neg]

theorem qmul_eq (x y : ℚ) : qmul x y = x * y := by
  have hx : ((x.den : ℚ)) ≠ 0 := by
    exact_mod_cast x.den_ne_zero
  have hy : ((y.den : ℚ)) ≠ 0 := by
    exact_mod_cast y.den_ne_zero
  rw [qmul, Rat.mkRat_eq_div]
  push_cast
  conv_rhs => rw [← Rat.num_div_den x, ← Rat.num_div_den y]
  rw [div_mul_div_comm]

theorem qinv_eq (y : ℚ) : qinv y = y⁻¹ :=
  (Rat.inv_def y).symm

theorem qdiv_eq (x y : ℚ) : qdiv x y = x / y := by
  rw [qdiv, qmul_eq, qinv_eq, div_eq_mul_inv]

theorem qsum_eq (l : List ℚ) : qsum l = l.sum := by
  induction l with
  | nil => rfl
  | cons x l ih =>
    rw [List.sum_cons, ← ih]
    exact (qadd_eq x (qsum l)).trans rfl

/-- Python `sum(d.values())`. -/
def sumAlloc (a : Alloc) : ℚ :=
  qsum (a.map Prod.snd)

theorem sumAlloc_eq (a : Alloc) : sumAlloc a = (a.map Prod.snd).sum :=
  qsum_eq _

/-- Python `sum(self.allocations.get(n, 0) for n in self.fixed_items)`. -/
def lockedSum (a : Alloc) (fixed : List String) : ℚ :=
  qsum (fixed.map (fun n => getD a n 0))

theorem lockedSum_eq (a : Alloc) (fixed : List String) :
    lockedSum a fixed = (fixed.map (fun n => getD a n 0)).sum :=
  qsum_eq _

/-- Python loop `for k in ks: d[k] = f(k)` (each key written once). -/
def applyAll (ks : List String) (f : String → ℚ) (a : Alloc) : Alloc :=
  ks.foldl (fun acc k => setval acc k (f k)) a

/-- Python `s.add(k)` on a set modelled as a duplicate-free list. -/
def setInsert (s : List String) (k : String) : List String :=
  if k ∈ s then s else s ++ [k]

/-- Decimal `quantize(Decimal("0.1"), ROUND_HALF_UP)`: round to one
decimal place, ties away from zero. -/
def roundHalfUp1 (x : ℚ) : ℚ :=
  if 0 ≤ x then mkRat ⌊qadd (qmul 10 x) (mkRat 1 2)⌋ 10
  else -(mkRat ⌊qadd (qmul 10 (-x)) (mkRat 1 2)⌋ 10)

/-- Python built-in `round(x, 1)`: round to one decimal place, ties to
even (the idealized semantics of banker's rounding on exact values). -/
def pyRound1 (x : ℚ) : ℚ :=
  if qsub (qmul 10 x) ((⌊qmul 10 x⌋ : ℤ) : ℚ) < mkRat 1 2 then
    mkRat ⌊qmul 10 x⌋ 10
  else if mkRat 1 2 < qsub (qmul 10 x) ((⌊qmul 10 x⌋ : ℤ) : ℚ) then
    mkRat (⌊qmul 10 x⌋ + 1) 10
  else if ⌊qmul 10 x⌋ % 2 = 0 then mkRat ⌊qmul 10 x⌋ 10
  else mkRat (⌊qmul 10 x⌋ + 1) 10

/-- Python `min(x, y)` on exact values (kernel-computable form). -/
def qmin (x y : ℚ) : ℚ :=
  if x ≤ y then x else y

/-- Python `max(x, y)` on exact values (kernel-computable form). -/
def qmax (x y : ℚ) : ℚ :=
  if x ≤ y then y else x

/-- Python `abs(x)` on exact values (kernel-computable form). -/
def qabs (x : ℚ) : ℚ :=
  if x < 0 then -x else x

theorem qmin_eq (x y : ℚ) : qmin x y = min x y := by
  rw [qmin, min_def]

theorem qmax_eq (x y : ℚ) : qmax x y = max x y := by
  rw [qmax, max_def]

theorem qabs_eq (x : ℚ) : qabs x = |x| := by
  unfold qabs
  split_ifs with h
  · exact (abs_of_neg h).symm
  · exact (abs_of_nonneg (le_of_not_lt h)).symm

/-- Python `min(iterable, key=f, default=None)` over a list: the first
element achieving the minimal key. -/
def argminBy (ks : List String) (f : String → ℚ) : Option String :=
  ks.foldl
    (fun acc k =>
      match acc with
      | none => some k
      | some b => if f k < f b then some k else acc)
    none

/-- State of `AllocationGroup`: the percentage map and the set of
locked child names. -/
structure AllocationGroup where
  allocations : Alloc
  fixed_items : List String
deriving DecidableEq

/-- The list `[k for k in self.allocations if k not in self.fixed_items]`. -/
def unlockedKeys (a : Alloc) (fixed : List String) : List String :=
  (keys a).filter (fun k => decide (k ∉ fixed))

/-- The sum of the unlocked items' current values. -/
def unlockedValsSum (a : Alloc) (fixed : List String) : ℚ :=
  qsum ((unlockedKeys a fixed).map (fun k => getD a k 0))

/-- Transcription of `AllocationGroup._normalize`: when the total
drifts from 100 by more than 0.1, rescale every unlocked value by
`(100 - locked values) / unlocked sum` and round half-up to one
decimal; no-op when the unlocked sum is not positive.  (The Python
sums `allocations[k]` for the fixed names by direct indexing; reachable
states keep `fixed_items` inside the key set, where that coincides with
the `get(k, 0)` form used here.) -/
def normalizeAlloc (a : Alloc) (fixed : List String) : Alloc :=
  if mkRat 1 10 < qabs (qsub (sumAlloc a) 100) then
    if 0 < unlockedValsSum a fixed then
      applyAll (unlockedKeys a fixed)
        (fun k => roundHalfUp1 (qmul (getD a k 0)
          (qdiv (qsub 100 (lockedSum a fixed)) (unlockedValsSum a fixed))))
        a
    else a
  else a

/-- The insertion `if name not in self.allocations: self.allocations[name] = 0.0`. -/
def ensureKey (a : Alloc) (name : String) : Alloc :=
  if hasKey a name then a else a ++ [(name, 0)]

/-- The clamp `value = min(max(0.0, value), available)` with
`available = 100 - locked_sum`. -/
def clampVal (a : Alloc) (fixed : List String) (value : ℚ) : ℚ :=
  qmin (qmax 0 value) (qsub 100 (lockedSum a fixed))

/-- The list `[k for k in self.allocations if k not in self.fixed_items and k != name]`. -/
def unlockedOthers (a : Alloc) (fixed : List String) (name : String) : List String :=
  (keys a).filter (fun k => decide (k ∉ fixed ∧ k ≠ name))

/-- The redistribution body of `update_allocation`: spread `remaining`
over the other unlocked items, proportionally when their total is
positive and equally otherwise; no-op when there are none. -/
def redistributeStep (a1 : Alloc) (unlocked : List String) (remaining : ℚ) : Alloc :=
  if unlocked.isEmpty then a1
  else if 0 < qsum (unlocked.map (fun k => getD a1 k 0)) then
    applyAll unlocked
      (fun k => qmul (getD a1 k 0)
        (qdiv remaining (qsum (unlocked.map (fun k2 => getD a1 k2 0)))))
      a1
  else
    applyAll unlocked (fun _ => qdiv remaining (unlocked.length : ℚ)) a1

/-- Transcription of `AllocationGroup.update_allocation`: no-op when
locked; seed at 100 when the group is empty; otherwise insert the key
when absent, clamp the request, write it, and — when the change exceeds
the 0.01 tolerance — redistribute the remainder over the other unlocked
items and normalize. -/
def updateAllocation (g : AllocationGroup) (name : String) (value : ℚ) :
    AllocationGroup :=
  if name ∈ g.fixed_items then g
  else if g.allocations = [] then { g with allocations := [(name, 100)] }
  else if mkRat 1 100 < qabs (qsub (getD (ensureKey g.allocations name) name 0)
      (clampVal (ensureKey g.allocations name) g.fixed_items value)) then
    { g with allocations := (normalizeAlloc
        (redistributeStep
          (setval (ensureKey g.allocations name) name
            (clampVal (ensureKey g.allocations name) g.fixed_items value))
          (unlockedOthers (ensureKey g.allocations name) g.fixed_items name)
          (qsub (qsub 100 (lockedSum (ensureKey g.allocations name) g.fixed_items))
            (clampVal (ensureKey g.allocations name) g.fixed_items value)))
        g.fixed_items) }
  else
    { g with allocations := (setval (ensureKey g.allocations name) name
        (clampVal (ensureKey g.allocations name) g.fixed_items value)) }

/-- Transcription of `AllocationGroup._redistribute_allocations`. -/
def redistributeAllocations (a : Alloc) (fixed : List String) : Alloc :=
  if (unlockedKeys a fixed).isEmpty then a
  else if 0 < unlockedValsSum a fixed then
    normalizeAlloc
      (applyAll (unlockedKeys a fixed)
        (fun k => pyRound1 (qmul (getD a k 0)
          (qdiv (qsub 100 (lockedSum a fixed)) (unlockedValsSum a fixed))))
        a)
      fixed
  else
    normalizeAlloc
      (applyAll (unlockedKeys a fixed)
        (fun _ => pyRound1 (qdiv (qsub 100 (lockedSum a fixed))
          ((unlockedKeys a fixed).length : ℚ)))
        a)
      fixed

/-- The paired unlock in `toggle_fixed`: when the group is fully locked
with more than one item, also drop the other locked item whose value is
closest to `name`'s (tie-breaking of `min` over the set is modelled as
first-in-list order). -/
def unlockRemoveSet (g : AllocationGroup) (name : String) : List String :=
  if g.fixed_items.length = g.allocations.length ∧ 1 < g.allocations.length then
    match
      argminBy (g.fixed_items.filter (fun k => decide (k ≠ name)))
        (fun k => qabs (qsub (getD g.allocations k 0) (getD g.allocations name 0)))
    with
    | some c => g.fixed_items.filter (fun k => decide (k ≠ c))
    | none => g.fixed_items
  else g.fixed_items

/-- Transcription of `AllocationGroup.toggle_fixed`: unknown names are
no-ops; locking is rejected past the 99.9 capacity, pair-locks the last
two unlocked items, and otherwise locks and redistributes; unlocking a
fully locked group also unlocks the closest-by-value item, then
normalizes. -/
def toggleFixed (g : AllocationGroup) (name : String) (isFixed : Bool) :
    AllocationGroup :=
  if ¬ hasKey g.allocations name then g
  else if isFixed then
    if mkRat 999 10 < qadd (lockedSum g.allocations g.fixed_items)
        (getD g.allocations name 0) then
      g
    else if (unlockedKeys g.allocations g.fixed_items).length = 2
        ∧ name ∈ unlockedKeys g.allocations g.fixed_items then
      { g with fixed_items := (setInsert (setInsert g.fixed_items name)
          (((unlockedKeys g.allocations g.fixed_items).filter
            (fun k => decide (k ≠ name))).headD "")) }
    else
      { g with
          fixed_items := setInsert g.fixed_items name
          allocations :=
            redistributeAllocations g.allocations (setInsert g.fixed_items name) }
  else
    if name ∈ g.fixed_items then
      { g with
          fixed_items := (unlockRemoveSet g name).filter (fun k => decide (k ≠ name))
          allocations :=
            normalizeAlloc g.allocations
              ((unlockRemoveSet g name).filter (fun k => decide (k ≠ name))) }
    else g

/-- Transcription of `AllocationGroup.has_single_unlocked_item`. -/
def hasSingleUnlockedItem (g : AllocationGroup) : Bool :=
  g.allocations.length - g.fixed_items.length = 1

/-- The closed set of node types from `src/models/enums.py`. -/
inductive NodeType where
  | ROOT
  | PORTFOLIO_ROOT
  | CASH
  | ETF
  | STOCK
  | FUND
  | CRYPTO
  | OTHER
  | CASH_SYMBOL
  | ETF_SYMBOL
  | STOCK_SYMBOL
  | FUND_SYMBOL
  | CRYPTO_SYMBOL
  | OTHER_SYMBOL
deriving DecidableEq

/-- A tree node from `src/models/node.py`: name, type, the `children`
dict (insertion-ordered, each child stored under its own name) and the
owned `AllocationGroup`.  The parent back-reference is dropped: the
operations verified here never read it. -/
inductive Node where
  | mk (name : String) (nodeType : NodeType) (children : List Node)
      (alloc : AllocationGroup)

def Node.name : Node → String
  | .mk n _ _ _ => n

def Node.nodeType : Node → NodeType
  | .mk _ t _ _ => t

def Node.children : Node → List Node
  | .mk _ _ cs _ => cs

def Node.alloc : Node → AllocationGroup
  | .mk _ _ _ a => a

/-- Python `name in current.children` / `current.children[name]`. -/
def findChild (n : Node) (s : String) : Option Node :=
  n.children.find? (fun c => decide (c.name = s))

/-- The name of the root node, `node.py`'s `ROOT_NAME`. -/
def rootName : String := "投資組合"

/-- The leading-segment strip in `get_node_by_path` and
`get_total_weight`: drop `path[0]` when it equals the root's name. -/
def stripRoot (rn : String) (path : List String) : List String :=
  match path with
  | [] => []
  | p :: rest => if p = rn then rest else p :: rest

/-- The loop of `PortfolioState.get_node_by_path`: exact-match lookup of
each remaining segment, `none` on any miss. -/
def goPath (cur : Node) : List String → Option Node
  | [] => some cur
  | s :: rest =>
    match findChild cur s with
    | none => none
    | some c => goPath c rest

/-- Transcription of `PortfolioState.get_node_by_path`. -/
def getNodeByPath (root : Node) (path : List String) : Option Node :=
  goPath root (stripRoot root.name path)

mutual

/-- The inner `collect` of `PortfolioState.get_all_nodes`: all direct
children first, then the recursive collection of each child in order. -/
def collect : Node → List Node
  | .mk _ _ cs _ => cs ++ collectList cs

def collectList : List Node → List Node
  | [] => []
  | c :: cs => collect c ++ collectList cs

end

/-- Transcription of `PortfolioState.get_all_nodes` (applied to a root). -/
def getAllNodes (root : Node) : List Node :=
  collect root

/-- The equal-share fallback in `get_total_weight`:
`100.0 / children_count if children_count else 0.0`. -/
def equalShareFallback (cur : Node) : ℚ :=
  if cur.children.length = 0 then 0 else qdiv 100 (cur.children.length : ℚ)

/-- The effective allocation of a path segment in `get_total_weight`:
the recorded value, falling back to the equal share when the entry is
missing or 0. -/
def effSegmentAlloc (cur : Node) (s : String) : ℚ :=
  match lookupQ cur.alloc.allocations s with
  | some v => if v = 0 then equalShareFallback cur else v
  | none => equalShareFallback cur

/-- The loop of `PortfolioState.get_total_weight`: multiply each
segment's effective allocation over 100 into the running total, and
stop (`break`) after the segment whose child is missing. -/
def totalWeightGo (cur : Node) (path : List String) (total : ℚ) : ℚ :=
  match path with
  | [] => total
  | s :: rest =>
    match findChild cur s with
    | none => qdiv (qmul total (effSegmentAlloc cur s)) 100
    | some nxt => totalWeightGo nxt rest (qdiv (qmul total (effSegmentAlloc cur s)) 100)

/-- Transcription of `PortfolioState.get_total_weight`. -/
def getTotalWeight (root : Node) (path : List String) : ℚ :=
  totalWeightGo root (stripRoot root.name path) 100

/-- Transcription of `Node.remove_child`: `none` when `name` is not a
current child; otherwise the node with the child, its allocation entry
and its lock flag deleted. -/
def removeChildNode (n : Node) (s : String) : Option Node :=
  if (findChild n s).isSome then
    some (.mk n.name n.nodeType
      (n.children.filter (fun c => decide (c.name ≠ s)))
      { allocations := n.alloc.allocations.filter (fun p => decide (p.1 ≠ s))
        fixed_items := n.alloc.fixed_items.filter (fun k => decide (k ≠ s)) })
  else none

/-- The post-removal rebalance in `PortfolioState.remove_asset`: give
every remaining child an equal share via `update_allocation`. -/
def rebalanceEqual (n : Node) : Node :=
  if n.children.isEmpty then n
  else
    let names := n.children.map Node.name
    let share : ℚ := qdiv 100 (names.length : ℚ)
    .mk n.name n.nodeType n.children
      (names.foldl (fun g m => updateAllocation g m share) n.alloc)

/-- Replace the child stored under `s` (used to write back an in-place
mutation of a node found by path). -/
def replaceChildAt (n : Node) (s : String) (c2 : Node) : Node :=
  .mk n.name n.nodeType
    (n.children.map (fun c => if c.name = s then c2 else c)) n.alloc

/-- Apply `f` to the node at `path` below `cur` (the pure counterpart of
mutating the node that `get_node_by_path` returned). -/
def modifyGo (cur : Node) (path : List String) (f : Node → Node) : Node :=
  match path with
  | [] => f cur
  | s :: rest =>
    match findChild cur s with
    | none => cur
    | some c => replaceChildAt cur s (modifyGo c rest f)

/-! Basic lemmas about the dict model. -/

theorem lookupQ_mem {a : Alloc} {k : String} {v : ℚ}
    (h : lookupQ a k = some v) : (k, v) ∈ a := by
  induction a with
  | nil => simp [lookupQ] at h
  | cons p rest ih =>
    obtain ⟨k2, v2⟩ := p
    by_cases hk : k = k2
    · subst hk
      simp [lookupQ] at h
      simp [h]
    · simp [lookupQ, hk] at h
      exact List.mem_cons_of_mem _ (ih h)

theorem getD_absent {a : Alloc} {k : String} {d : ℚ}
    (h : hasKey a k = false) : getD a k d = d := by
  unfold hasKey at h
  unfold getD
  cases hl : lookupQ a k with
  | none => rfl
  | some v => rw [hl] at h; simp at h

theorem lookupQ_setval_self (a : Alloc) (k : String) (v : ℚ) :
    lookupQ (setval a k v) k = some v := by
  induction a with
  | nil => simp [setval, lookupQ]
  | cons p rest ih =>
    obtain ⟨k2, v2⟩ := p
    by_cases hk : k = k2
    · simp [setval, hk, lookupQ]
    · simp [setval, hk, lookupQ, ih]

theorem lookupQ_setval_ne (a : Alloc) (k : String) (v : ℚ) {n : String}
    (h : n ≠ k) : lookupQ (setval a k v) n = lookupQ a n := by
  induction a with
  | nil => simp [setval, lookupQ, h]
  | cons p rest ih =>
    obtain ⟨k2, v2⟩ := p
    by_cases hk : k = k2
    · subst hk
      simp [setval, lookupQ, h]
    · by_cases hn : n = k2
      · simp [setval, hk, lookupQ, hn]
      · simp [setval, hk, lookupQ, hn, ih]

theorem getD_setval_self (a : Alloc) (k : String) (v d : ℚ) :
    getD (setval a k v) k d = v := by
  simp [getD, lookupQ_setval_self]

theorem getD_setval_ne (a : Alloc) (k : String) (v d : ℚ) {n : String}
    (h : n ≠ k) : getD (setval a k v) n d = getD a n d := by
  simp [getD, lookupQ_setval_ne a k v h]

theorem hasKey_setval (a : Alloc) (k : String) (v : ℚ) (n : String) :
    hasKey (setval a k v) n = if n = k then true else hasKey a n := by
  by_cases h : n = k
  · simp [h, hasKey, lookupQ_setval_self]
  · simp [h, hasKey, lookupQ_setval_ne a k v h]

theorem keys_setval_present (a : Alloc) (k : String) (v : ℚ)
    (h : hasKey a k = true) : keys (setval a k v) = keys a := by
  induction a with
  | nil => simp [hasKey, lookupQ] at h
  | cons p rest ih =>
    obtain ⟨k2, v2⟩ := p
    by_cases hk : k = k2
    · simp [setval, hk, keys]
    · simp [hasKey, lookupQ, hk] at h
      simp [setval, hk, keys] at ih ⊢
      exact ih h

theorem sum_setval (a : Alloc) (k : String) (v : ℚ)
    (h : hasKey a k = true) :
    sumAlloc (setval a k v) = sumAlloc a - getD a k 0 + v := by
  induction a with
  | nil => simp [hasKey, lookupQ] at h
  | cons p rest ih =>
    obtain ⟨k2, v2⟩ := p
    by_cases hk : k = k2
    · subst hk
      simp [setval, sumAlloc, qsum_eq, getD, lookupQ]
      ring
    · simp [hasKey, lookupQ, hk] at h
      simp [setval, hk, sumAlloc, qsum_eq, getD, lookupQ] at ih ⊢
      rw [ih h]
      ring

theorem hasKey_iff_mem_keys (a : Alloc) (k : String) :
    hasKey a k = true ↔ k ∈ keys a := by
  induction a with
  | nil => simp [hasKey, lookupQ, keys]
  | cons p rest ih =>
    obtain ⟨k2, v2⟩ := p
    by_cases hk : k = k2
    · simp [hasKey, lookupQ, hk, keys]
    · simp [hasKey, lookupQ, hk, keys] at ih ⊢
      exact ih

theorem lookupQ_append_ne (a : Alloc) (m : String) (x : ℚ) {n : String}
    (h : n ≠ m) : lookupQ (a ++ [(m, x)]) n = lookupQ a n := by
  induction a with
  | nil => simp [lookupQ, h]
  | cons p rest ih =>
    obtain ⟨k2, v2⟩ := p
    by_cases hn : n = k2
    · simp [lookupQ, hn]
    · simp [lookupQ, hn, ih]

theorem getD_append_ne (a : Alloc) (m : String) (x d : ℚ) {n : String}
    (h : n ≠ m) : getD (a ++ [(m, x)]) n d = getD a n d := by
  simp [getD, lookupQ_append_ne a m x h]

theorem lookupQ_append_self (a : Alloc) (m : String) (x : ℚ)
    (h : hasKey a m = false) : lookupQ (a ++ [(m, x)]) m = some x := by
  induction a with
  | nil => simp [lookupQ]
  | cons p rest ih =>
    obtain ⟨k2, v2⟩ := p
    by_cases hm : m = k2
    · simp [hasKey, lookupQ, hm] at h
    · simp [hasKey, lookupQ, hm] at h
      simp [lookupQ, hm]
      exact ih (by simp [hasKey, h])

theorem sumAlloc_append (a : Alloc) (m : String) (x : ℚ) :
    sumAlloc (a ++ [(m, x)]) = sumAlloc a + x := by
  simp [sumAlloc, qsum_eq]

theorem keys_append_single (a : Alloc) (m : String) (x : ℚ) :
    keys (a ++ [(m, x)]) = keys a ++ [m] := by
  simp [keys]

/-! Lemmas about `ensureKey`. -/

theorem hasKey_ensure_self (a : Alloc) (name : String) :
    hasKey (ensureKey a name) name = true := by
  unfold ensureKey
  cases hv : hasKey a name with
  | true => simp [hv]
  | false =>
    rw [if_neg (by simp [hv])]
    simp [hasKey, lookupQ_append_self a name 0 hv]

theorem getD_ensure_ne (a : Alloc) (name : String) {n : String} (d : ℚ)
    (h : n ≠ name) : getD (ensureKey a name) n d = getD a n d := by
  unfold ensureKey
  by_cases hk : hasKey a name
  · simp [hk]
  · simp at hk
    simp [hk, getD_append_ne a name 0 d h]

theorem getD_ensure_self (a : Alloc) (name : String)
    (h : hasKey a name = false) : getD (ensureKey a name) name 0 = 0 := by
  unfold ensureKey
  simp [h, getD, lookupQ_append_self a name 0 h]

theorem sum_ensure (a : Alloc) (name : String) :
    sumAlloc (ensureKey a name) = sumAlloc a := by
  unfold ensureKey
  by_cases h : hasKey a name
  · simp [h]
  · simp at h
    simp [h, sumAlloc_append]

theorem lockedSum_ensure (a : Alloc) (fixed : List String) (name : String)
    (h : name ∉ fixed) : lockedSum (ensureKey a name) fixed = lockedSum a fixed := by
  unfold lockedSum
  refine congrArg _ (List.map_congr_left ?_)
  intro n hn
  exact getD_ensure_ne a name 0 (fun e => h (e ▸ hn))

theorem keys_ensure_nodup (a : Alloc) (name : String)
    (h : (keys a).Nodup) : (keys (ensureKey a name)).Nodup := by
  unfold ensureKey
  by_cases hk : hasKey a name
  · simp [hk, h]
  · simp at hk
    rw [if_neg (by simp [hk]), keys_append_single]
    have : name ∉ keys a := fun hm => by
      rw [← hasKey_iff_mem_keys] at hm
      rw [hm] at hk
      cases hk
    simp [List.nodup_append, h, this]

theorem hasKey_ensure_of (a : Alloc) (name : String) {n : String}
    (h : hasKey a n = true) : hasKey (ensureKey a name) n = true := by
  unfold ensureKey
  by_cases hk : hasKey a name
  · simp [hk, h]
  · by_cases hn : n = name
    · subst hn
      rw [h] at hk
      simp at hk
    · simp at hk
      rw [if_neg (by simp [hk])]
      simp [hasKey, lookupQ_append_ne a name 0 hn]
      simpa [hasKey] using h

/-! Lemmas about `applyAll` (the in-place update loops). -/

theorem applyAll_cons (k : String) (ks : List String) (f : String → ℚ) (a : Alloc) :
    applyAll (k :: ks) f a = applyAll ks f (setval a k (f k)) := rfl

theorem getD_applyAll_not_mem {ks : List String} (f : String → ℚ) (a : Alloc)
    {n : String} (d : ℚ) (h : n ∉ ks) :
    getD (applyAll ks f a) n d = getD a n d := by
  induction ks generalizing a with
  | nil => rfl
  | cons k ks ih =>
    rw [applyAll_cons]
    have hn : n ≠ k := fun e => h (e ▸ List.mem_cons_self k ks)
    rw [ih _ (fun hm => h (List.mem_cons_of_mem _ hm)), getD_setval_ne _ _ _ _ hn]

theorem getD_applyAll_mem {ks : List String} (f : String → ℚ) (a : Alloc)
    {n : String} (d : ℚ) (hnd : ks.Nodup) (h : n ∈ ks) :
    getD (applyAll ks f a) n d = f n := by
  induction ks generalizing a with
  | nil => cases h
  | cons k ks ih =>
    rw [applyAll_cons]
    rcases List.mem_cons.mp h with he | hm
    · subst he
      have hnot : n ∉ ks := (List.nodup_cons.mp hnd).1
      rw [getD_applyAll_not_mem _ _ _ hnot, getD_setval_self]
    · exact ih _ (List.nodup_cons.mp hnd).2 hm

theorem hasKey_applyAll_of {ks : List String} (f : String → ℚ) (a : Alloc)
    {n : String} (h : hasKey a n = true) :
    hasKey (applyAll ks f a) n = true := by
  induction ks generalizing a with
  | nil => exact h
  | cons k ks ih =>
    rw [applyAll_cons]
    apply ih
    rw [hasKey_setval]
    by_cases hn : n = k <;> simp [hn, h]

theorem sum_applyAll {ks : List String} (f : String → ℚ) (a : Alloc)
    (hnd : ks.Nodup) (hks : ∀ k ∈ ks, hasKey a k = true) :
    sumAlloc (applyAll ks f a)
      = sumAlloc a - (ks.map (fun k => getD a k 0)).sum + (ks.map f).sum := by
  induction ks generalizing a with
  | nil => simp [applyAll]
  | cons k ks ih =>
    rw [applyAll_cons]
    have hk : hasKey a k = true := hks k (List.mem_cons_self k ks)
    have hnotin : k ∉ ks := (List.nodup_cons.mp hnd).1
    have h2 : ∀ k2 ∈ ks, hasKey (setval a k (f k)) k2 = true := by
      intro k2 hk2
      rw [hasKey_setval]
      by_cases he : k2 = k <;> simp [he, hks k2 (List.mem_cons_of_mem _ hk2)]
    rw [ih _ (List.nodup_cons.mp hnd).2 h2, sum_setval a k (f k) hk]
    have h3 : (ks.map (fun k2 => getD (setval a k (f k)) k2 0)).sum
        = (ks.map (fun k2 => getD a k2 0)).sum := by
      refine congrArg _ (List.map_congr_left ?_)
      intro k2 hk2
      exact getD_setval_ne a k (f k) 0 (fun e => hnotin (e ▸ hk2))
    rw [h3]
    simp only [List.map_cons, List.sum_cons]
    ring

/-! Sum-partition machinery for the group invariants. -/

theorem getD_cons_ne (k : String) (v : ℚ) (rest : Alloc) {n : String} (d : ℚ)
    (h : n ≠ k) : getD ((k, v) :: rest) n d = getD rest n d := by
  simp [getD, lookupQ, h]

theorem sum_map_getD_keys {a : Alloc} (h : (keys a).Nodup) :
    sumAlloc a = ((keys a).map (fun k => getD a k 0)).sum := by
  induction a with
  | nil => simp [sumAlloc, qsum_eq, keys]
  | cons p rest ih =>
    obtain ⟨k, v⟩ := p
    have hkeys : keys ((k, v) :: rest) = k :: keys rest := by simp [keys]
    rw [hkeys] at h ⊢
    have hknot : k ∉ keys rest := (List.nodup_cons.mp h).1
    have htl : (keys rest).Nodup := (List.nodup_cons.mp h).2
    have hcong : ((keys rest).map (fun k2 => getD ((k, v) :: rest) k2 0))
        = ((keys rest).map (fun k2 => getD rest k2 0)) := by
      refine List.map_congr_left ?_
      intro k2 hk2
      exact getD_cons_ne k v rest 0 (fun e => hknot (e ▸ hk2))
    simp only [List.map_cons, List.sum_cons, hcong]
    have hself : getD ((k, v) :: rest) k 0 = v := by simp [getD, lookupQ]
    rw [hself, ← ih htl]
    simp [sumAlloc, qsum_eq]

theorem sum_map_filter_split (l : List String) (p : String → Bool) (h : String → ℚ) :
    (l.map h).sum
      = ((l.filter p).map h).sum + ((l.filter (fun k => !p k)).map h).sum := by
  induction l with
  | nil => simp
  | cons x l ih =>
    cases hp : p x with
    | true => simp [List.filter_cons, hp, ih]; ring
    | false => simp [List.filter_cons, hp, ih]; ring

theorem sum_map_eq_of_mem_iff {l1 l2 : List String} (h1 : l1.Nodup) (h2 : l2.Nodup)
    (hm : ∀ x, x ∈ l1 ↔ x ∈ l2) (f : String → ℚ) :
    (l1.map f).sum = (l2.map f).sum :=
  (((List.perm_ext_iff_of_nodup h1 h2).mpr hm).map f).sum_eq

theorem filter_eq_singleton {l : List String} {x : String} (h : l.Nodup) (hx : x ∈ l) :
    l.filter (fun y => decide (y = x)) = [x] := by
  induction l with
  | nil => cases hx
  | cons a l ih =>
    by_cases he : a = x
    · have hxl : x ∉ l := fun hm => (List.nodup_cons.mp h).1 (he ▸ hm)
      have hnil : l.filter (fun y => decide (y = x)) = [] := by
        refine List.filter_eq_nil_iff.mpr ?_
        intro b hb
        simp only [decide_eq_true_eq]
        exact fun e => hxl (e ▸ hb)
      simp [List.filter_cons, he, hnil]
    · have hm : x ∈ l := by
        rcases List.mem_cons.mp hx with h1 | h2
        · exact absurd h1.symm he
        · exact h2
      simp [List.filter_cons, he, ih (List.nodup_cons.mp h).2 hm]

theorem alloc_partition {a : Alloc} {fixed : List String} {name : String}
    (hk : (keys a).Nodup) (hf : fixed.Nodup) (hnf : name ∉ fixed)
    (hmem : hasKey a name = true) :
    sumAlloc a = lockedSum a fixed + getD a name 0
      + ((unlockedOthers a fixed name).map (fun k => getD a k 0)).sum := by
  have hstep1 := sum_map_getD_keys hk
  have hstep2 := sum_map_filter_split (keys a)
    (fun k => decide (k ∉ fixed ∧ k ≠ name)) (fun k => getD a k 0)
  have hUdef : unlockedOthers a fixed name
      = (keys a).filter (fun k => decide (k ∉ fixed ∧ k ≠ name)) := rfl
  set notP := (keys a).filter
    (fun k => !(decide (k ∉ fixed ∧ k ≠ name))) with hnotP
  have hstep3 := sum_map_filter_split notP
    (fun k => decide (k = name)) (fun k => getD a k 0)
  have hnameMem : name ∈ notP := by
    rw [hnotP]
    refine List.mem_filter.mpr ⟨(hasKey_iff_mem_keys a name).mp hmem, ?_⟩
    simp
  have hnotPnd : notP.Nodup := by
    rw [hnotP]
    exact hk.filter _
  have hsingle : notP.filter (fun y => decide (y = name)) = [name] :=
    filter_eq_singleton hnotPnd hnameMem
  have hlocked : ((notP.filter (fun y => !(decide (y = name)))).map
        (fun k => getD a k 0)).sum = lockedSum a fixed := by
    have hsplitF := sum_map_filter_split fixed
      (fun n => hasKey a n) (fun k => getD a k 0)
    have hzero : ((fixed.filter (fun n => !(hasKey a n))).map
        (fun k => getD a k 0)).sum = 0 := by
      have : ((fixed.filter (fun n => !(hasKey a n))).map
          (fun k => getD a k 0)) = ((fixed.filter (fun n => !(hasKey a n))).map
          (fun _ => (0 : ℚ))) := by
        refine List.map_congr_left ?_
        intro n hn
        have := (List.mem_filter.mp hn).2
        simp only [Bool.not_eq_true'] at this
        exact getD_absent this
      rw [this]
      simp
    have hmemiff : ∀ x, x ∈ fixed.filter (fun n => hasKey a n)
        ↔ x ∈ notP.filter (fun y => !(decide (y = name))) := by
      intro x
      constructor
      · intro hx
        obtain ⟨hxf, hxk⟩ := List.mem_filter.mp hx
        have hxne : x ≠ name := fun e => hnf (e ▸ hxf)
        refine List.mem_filter.mpr ⟨?_, by simp [hxne]⟩
        rw [hnotP]
        refine List.mem_filter.mpr ⟨(hasKey_iff_mem_keys a x).mp hxk, ?_⟩
        simp [hxf]
      · intro hx
        obtain ⟨hxn, hxq⟩ := List.mem_filter.mp hx
        have hxne : x ≠ name := by simpa using hxq
        rw [hnotP] at hxn
        obtain ⟨hxk, hxp⟩ := List.mem_filter.mp hxn
        have hxf : x ∈ fixed := by
          by_contra hc
          simp [hc, hxne] at hxp
        exact List.mem_filter.mpr ⟨hxf, (hasKey_iff_mem_keys a x).mpr hxk⟩
    have heq := sum_map_eq_of_mem_iff (hf.filter _)
      (hnotPnd.filter _) hmemiff (fun k => getD a k 0)
    rw [lockedSum_eq, hsplitF, hzero, heq]
    ring
  rw [hUdef, hstep1, hstep2, hstep3, hsingle, hlocked]
  simp only [List.map_cons, List.map_nil, List.sum_cons, List.sum_nil]
  ring

/-! Lemmas about `redistributeStep` and `normalizeAlloc`. -/

theorem sum_redistributeStep (a1 : Alloc) (unlocked : List String) (remaining : ℚ)
    (hne : unlocked ≠ []) (hnd : unlocked.Nodup)
    (hks : ∀ k ∈ unlocked, hasKey a1 k = true) :
    sumAlloc (redistributeStep a1 unlocked remaining)
      = sumAlloc a1 - (unlocked.map (fun k => getD a1 k 0)).sum + remaining := by
  unfold redistributeStep
  rw [if_neg (by simpa [List.isEmpty_iff] using hne)]
  by_cases hpos : 0 < qsum (unlocked.map (fun k => getD a1 k 0))
  · rw [if_pos hpos, sum_applyAll _ _ hnd hks]
    congr 1
    have hf : (unlocked.map (fun k => qmul (getD a1 k 0)
        (qdiv remaining (qsum (unlocked.map (fun k2 => getD a1 k2 0))))))
        = unlocked.map (fun k => getD a1 k 0 *
          (remaining / (unlocked.map (fun k2 => getD a1 k2 0)).sum)) := by
      refine List.map_congr_left ?_
      intro k _
      rw [qmul_eq, qdiv_eq, qsum_eq]
    rw [hf, List.sum_map_mul_right]
    rw [qsum_eq] at hpos
    rw [mul_comm, div_mul_cancel₀ remaining hpos.ne']
  · rw [if_neg hpos, sum_applyAll _ _ hnd hks]
    congr 1
    have hlen : (unlocked.length : ℚ) ≠ 0 := by
      simpa using hne
    have hf : (unlocked.map (fun _ => qdiv remaining ((unlocked.length : ℕ) : ℚ)))
        = unlocked.map (fun _ => remaining / (unlocked.length : ℚ)) := by
      refine List.map_congr_left ?_
      intro k _
      rw [qdiv_eq]
    rw [hf]
    have : (unlocked.map (fun _ => remaining / (unlocked.length : ℚ)))
        = List.replicate unlocked.length (remaining / (unlocked.length : ℚ)) := by
      simp [List.map_const']
    rw [this, List.sum_replicate, nsmul_eq_mul, mul_div_cancel₀ remaining hlen]

theorem getD_redistributeStep_not_mem (a1 : Alloc) (unlocked : List String)
    (remaining : ℚ) {n : String} (d : ℚ) (h : n ∉ unlocked) :
    getD (redistributeStep a1 unlocked remaining) n d = getD a1 n d := by
  unfold redistributeStep
  split_ifs with h1 h2
  · rfl
  · exact getD_applyAll_not_mem _ _ _ h
  · exact getD_applyAll_not_mem _ _ _ h

theorem normalize_of_total {a : Alloc} (fixed : List String)
    (h : ¬ (mkRat 1 10 < qabs (qsub (sumAlloc a) 100))) :
    normalizeAlloc a fixed = a := by
  unfold normalizeAlloc
  simp only [if_neg h]

theorem normalize_of_sum_100 {a : Alloc} (fixed : List String)
    (h : sumAlloc a = 100) : normalizeAlloc a fixed = a := by
  refine normalize_of_total fixed ?_
  rw [h, qsub_eq, qabs_eq, Rat.mkRat_eq_div]
  norm_num

theorem not_mem_unlockedKeys_of_fixed {a : Alloc} {fixed : List String} {n : String}
    (h : n ∈ fixed) : n ∉ unlockedKeys a fixed := by
  intro hmm
  have := (List.mem_filter.mp hmm).2
  simp at this
  exact this h

theorem getD_normalize_fixed (a : Alloc) (fixed : List String) {n : String} (d : ℚ)
    (h : n ∈ fixed) : getD (normalizeAlloc a fixed) n d = getD a n d := by
  unfold normalizeAlloc
  split_ifs with h1 h2
  · exact getD_applyAll_not_mem _ _ _ (not_mem_unlockedKeys_of_fixed h)
  · rfl
  · rfl

theorem not_mem_unlockedOthers_of_fixed {a : Alloc} {fixed : List String}
    {name n : String} (h : n ∈ fixed) : n ∉ unlockedOthers a fixed name := by
  intro hmm
  have := (List.mem_filter.mp hmm).2
  simp at this
  exact absurd h this.1

theorem getD_singleton_ne (m : String) (x : ℚ) {n : String} (hnm : n ≠ m) :
    getD [(m, x)] n 0 = 0 := by
  simp [getD, lookupQ, hnm]

/-- Transcription of `PortfolioState.remove_asset`: reject the empty
path, an unresolvable parent path, a locked last segment, and a last
segment that is not a current child; otherwise remove the child and
rebalance the remaining children equally. -/
def removeAsset (root : Node) (path : List String) : Bool × Node :=
  if path = [] then (false, root)
  else
    let parentPath := stripRoot root.name path.dropLast
    let last := path.getLastD ""
    match goPath root parentPath with
    | none => (false, root)
    | some parent =>
      if last ∈ parent.alloc.fixed_items then (false, root)
      else
        match removeChildNode parent last with
        | none => (false, root)
        | some _ =>
          (true,
            modifyGo root parentPath (fun p =>
              match removeChildNode p last with
              | none => p
              | some p2 => rebalanceEqual p2))

/-! Claim C2: lock invariance. -/

/-- C2.  Lock invariance: for every group state, every name `n` in
`fixed_items`, every other name `m ≠ n` and every value `v`, the value
of `n` after `update_allocation(m, v)` equals its value before the
call; likewise `_normalize` and `_redistribute_allocations` never
modify the value of any fixed name. -/
theorem c2_lock_invariance (g : AllocationGroup) (n m : String) (v : ℚ)
    (a : Alloc) (fixed : List String)
    (hn : n ∈ g.fixed_items) (hnm : m ≠ n) (hnf : n ∈ fixed) :
    getD (updateAllocation g m v).allocations n 0 = getD g.allocations n 0
      ∧ getD (normalizeAlloc a fixed) n 0 = getD a n 0
      ∧ getD (redistributeAllocations a fixed) n 0 = getD a n 0 := by
  have hnm2 : n ≠ m := fun e => hnm e.symm
  refine ⟨?_, getD_normalize_fixed a fixed 0 hnf, ?_⟩
  · unfold updateAllocation
    split_ifs with h1 h2 h3
    · rfl
    · rw [h2]
      simp only
      rw [getD_singleton_ne m 100 hnm2]
      simp [getD, lookupQ]
    · simp only
      rw [getD_normalize_fixed _ _ 0 hn,
        getD_redistributeStep_not_mem _ _ _ 0 (not_mem_unlockedOthers_of_fixed hn),
        getD_setval_ne _ _ _ 0 hnm2, getD_ensure_ne _ _ 0 hnm2]
    · simp only
      rw [getD_setval_ne _ _ _ 0 hnm2, getD_ensure_ne _ _ 0 hnm2]
  · unfold redistributeAllocations
    split_ifs with h1 h2
    · rfl
    · rw [getD_normalize_fixed _ _ 0 hnf,
        getD_applyAll_not_mem _ _ _ (not_mem_unlockedKeys_of_fixed hnf)]
    · rw [getD_normalize_fixed _ _ 0 hnf,
        getD_applyAll_not_mem _ _ _ (not_mem_unlockedKeys_of_fixed hnf)]

/-- Witness for C2 at a concrete group: locking Bonds at 50 keeps its
value across an update of Stocks. -/
theorem c2_witness :
    getD (updateAllocation ⟨[("Stocks", 50), ("Bonds", 50)], ["Bonds"]⟩
        "Stocks" 10).allocations "Bonds" 0 = 50 := by
  have h := (c2_lock_invariance ⟨[("Stocks", 50), ("Bonds", 50)], ["Bonds"]⟩
    "Bonds" "Stocks" 10 [] ["Bonds"] (by decide) (by decide) (by decide)).1
  rw [h]
  decide

/-! Claim C9: sub-threshold update frame. -/

/-- C9.  Sub-threshold update frame: on a non-empty group that already
contains the unlocked name `n`, when the clamped request differs from
the current value by at most 0.01, `update_allocation(n, v)` just
writes the clamped value in place: the allocation list becomes a
point update of the old one, `fixed_items` is untouched, every other
entry keeps its value, and neither redistribution nor normalization
runs (the result is literally the point update). -/
theorem c9_subthreshold_frame (g : AllocationGroup) (n : String) (v : ℚ)
    (hne : g.allocations ≠ []) (hmem : hasKey g.allocations n = true)
    (hnf : n ∉ g.fixed_items)
    (hsmall : qabs (qsub (getD g.allocations n 0)
      (clampVal g.allocations g.fixed_items v)) ≤ mkRat 1 100) :
    (updateAllocation g n v).allocations
        = setval g.allocations n (clampVal g.allocations g.fixed_items v)
      ∧ (updateAllocation g n v).fixed_items = g.fixed_items
      ∧ ∀ m : String, m ≠ n →
          getD (updateAllocation g n v).allocations m 0 = getD g.allocations m 0 := by
  have hek : ensureKey g.allocations n = g.allocations := by
    unfold ensureKey
    rw [if_pos hmem]
  have hmain : updateAllocation g n v
      = { g with allocations :=
            setval g.allocations n (clampVal g.allocations g.fixed_items v) } := by
    unfold updateAllocation
    rw [if_neg hnf, if_neg hne, hek, if_neg (not_lt.mpr hsmall)]
  refine ⟨by rw [hmain], by rw [hmain], ?_⟩
  intro m hm
  rw [hmain]
  exact getD_setval_ne _ _ _ 0 hm

/-- Witness for C9: nudging Stocks from 60 to 60.005 (within the 0.01
tolerance) updates only Stocks, in place. -/
theorem c9_witness :
    (updateAllocation ⟨[("Stocks", 60), ("Bonds", 40)], []⟩
        "Stocks" (mkRat 12001 200)).allocations
      = [("Stocks", mkRat 12001 200), ("Bonds", 40)] := by
  have h := (c9_subthreshold_frame ⟨[("Stocks", 60), ("Bonds", 40)], []⟩
    "Stocks" (mkRat 12001 200) (by decide) (by decide) (by decide) (by decide)).1
  rw [h]
  decide

/-! Claim C1: the sum invariant. -/

theorem unlockedOthers_setval (a : Alloc) (k : String) (v : ℚ)
    (fixed : List String) (name : String) (h : hasKey a k = true) :
    unlockedOthers (setval a k v) fixed name = unlockedOthers a fixed name := by
  unfold unlockedOthers
  rw [keys_setval_present a k v h]

theorem lockedSum_setval (a : Alloc) (fixed : List String) {name : String} (v : ℚ)
    (hnf : name ∉ fixed) : lockedSum (setval a name v) fixed = lockedSum a fixed := by
  rw [lockedSum_eq, lockedSum_eq]
  refine congrArg _ (List.map_congr_left ?_)
  intro n hn
  exact getD_setval_ne a name v 0 (fun e => hnf (e ▸ hn))

/-- After a triggered redistribution over a non-empty list of other
unlocked items the group total is exactly 100. -/
theorem redistribute_sum_100 (a1 : Alloc) (fixed : List String) (name : String)
    (hk1 : (keys a1).Nodup) (hf : fixed.Nodup) (hnf : name ∉ fixed)
    (hmem : hasKey a1 name = true)
    (hU : unlockedOthers a1 fixed name ≠ []) :
    sumAlloc (redistributeStep a1 (unlockedOthers a1 fixed name)
      (qsub (qsub 100 (lockedSum a1 fixed)) (getD a1 name 0))) = 100 := by
  have hnd : (unlockedOthers a1 fixed name).Nodup := hk1.filter _
  have hks : ∀ k ∈ unlockedOthers a1 fixed name, hasKey a1 k = true := by
    intro k hkm
    exact (hasKey_iff_mem_keys a1 k).mpr (List.mem_filter.mp hkm).1
  rw [sum_redistributeStep _ _ _ hU hnd hks]
  have hpart := alloc_partition hk1 hf hnf hmem
  rw [qsub_eq, qsub_eq]
  linarith [hpart]

/-- C1 (amended).  The claimed invariant — every call keeps the total
within 0.1 of 100 — fails on the code (see the counterexample); what
holds for `update_allocation` is: seeding an empty group gives total
exactly 100; a call whose clamped change exceeds the 0.01 tolerance
while at least one other unlocked item exists restores the total to
exactly 100; and a sub-threshold call moves the total by at most 0.01,
so repeated sub-threshold calls can drift the total past the 0.1
tolerance. -/
theorem c1_sum_invariant_amended (g : AllocationGroup) (name : String) (value : ℚ)
    (hk : (keys g.allocations).Nodup) (hf : g.fixed_items.Nodup)
    (hnf : name ∉ g.fixed_items) :
    (g.allocations = [] → sumAlloc (updateAllocation g name value).allocations = 100)
    ∧ (g.allocations ≠ [] →
        mkRat 1 100 < qabs (qsub (getD (ensureKey g.allocations name) name 0)
          (clampVal (ensureKey g.allocations name) g.fixed_items value)) →
        unlockedOthers (ensureKey g.allocations name) g.fixed_items name ≠ [] →
        sumAlloc (updateAllocation g name value).allocations = 100)
    ∧ (g.allocations ≠ [] →
        ¬ (mkRat 1 100 < qabs (qsub (getD (ensureKey g.allocations name) name 0)
          (clampVal (ensureKey g.allocations name) g.fixed_items value))) →
        qabs (qsub (sumAlloc (updateAllocation g name value).allocations)
          (sumAlloc g.allocations)) ≤ mkRat 1 100) := by
  refine ⟨?_, ?_, ?_⟩
  · intro hempty
    unfold updateAllocation
    rw [if_neg hnf, if_pos hempty]
    simp [sumAlloc, qsum_eq]
  · intro hne htrig hU
    unfold updateAllocation
    rw [if_neg hnf, if_neg hne, if_pos htrig]
    have hmem0 : hasKey (ensureKey g.allocations name) name = true :=
      hasKey_ensure_self g.allocations name
    have hk0 : (keys (ensureKey g.allocations name)).Nodup :=
      keys_ensure_nodup g.allocations name hk
    have hmem1 : hasKey (setval (ensureKey g.allocations name) name
        (clampVal (ensureKey g.allocations name) g.fixed_items value)) name = true := by
      rw [hasKey_setval]
      simp
    have hk1 : (keys (setval (ensureKey g.allocations name) name
        (clampVal (ensureKey g.allocations name) g.fixed_items value))).Nodup := by
      rw [keys_setval_present _ _ _ hmem0]
      exact hk0
    have hUs := unlockedOthers_setval (ensureKey g.allocations name) name
      (clampVal (ensureKey g.allocations name) g.fixed_items value)
      g.fixed_items name hmem0
    have hls := lockedSum_setval (ensureKey g.allocations name) g.fixed_items
      (clampVal (ensureKey g.allocations name) g.fixed_items value) hnf
    have hgd := getD_setval_self (ensureKey g.allocations name) name
      (clampVal (ensureKey g.allocations name) g.fixed_items value) 0
    have h100 := redistribute_sum_100
      (setval (ensureKey g.allocations name) name
        (clampVal (ensureKey g.allocations name) g.fixed_items value))
      g.fixed_items name hk1 hf hnf hmem1 (by rw [hUs]; exact hU)
    rw [hUs, hls, hgd] at h100
    simp only
    rw [normalize_of_sum_100 g.fixed_items h100]
    exact h100
  · intro hne hsmall
    unfold updateAllocation
    rw [if_neg hnf, if_neg hne, if_neg hsmall]
    have hmem0 : hasKey (ensureKey g.allocations name) name = true :=
      hasKey_ensure_self g.allocations name
    simp only
    rw [sum_setval _ _ _ hmem0, sum_ensure]
    rw [qabs_eq, qsub_eq] at hsmall ⊢
    rw [not_lt] at hsmall
    have heq : sumAlloc g.allocations
        - getD (ensureKey g.allocations name) name 0
        + clampVal (ensureKey g.allocations name) g.fixed_items value
        - sumAlloc g.allocations
        = -(getD (ensureKey g.allocations name) name 0
          - clampVal (ensureKey g.allocations name) g.fixed_items value) := by
      ring
    rw [heq, abs_neg]
    exact hsmall

/-- Witness for the amended C1 at a concrete input: updating B from 50
to 30 in an unlocked A/B group triggers redistribution and restores the
total to exactly 100. -/
theorem c1_witness :
    sumAlloc (updateAllocation ⟨[("A", 50), ("B", 50)], []⟩ "B" 30).allocations
      = 100 := by
  exact (c1_sum_invariant_amended ⟨[("A", 50), ("B", 50)], []⟩ "B" 30
    (by decide) (by decide) (by decide)).2.1 (by decide) (by decide) (by decide)

/-- Counterexample to C1 as stated: starting from the empty group, the
calls `update_allocation("A",50)`, `update_allocation("B",50)` and then
thirteen sub-threshold calls `update_allocation("C", k/128)`
(k = 1, …, 13; each step is 1/128 ≤ 0.01) end with total 100 + 13/128,
which differs from 100 by more than 0.1. -/
theorem c1_counterexample :
    mkRat 1 10 < qabs (qsub (sumAlloc
      ((List.range 13).foldl
        (fun g k => updateAllocation g "C" (mkRat (k + 1 : ℕ) 128))
        (updateAllocation (updateAllocation ⟨[], []⟩ "A" 50) "B" 50)).allocations)
      100) := by
  decide

/-! Claim C5: clamping and nonnegativity. -/

theorem nonneg_getD {a : Alloc} (hnn : ∀ p ∈ a, 0 ≤ p.2) (k : String) {d : ℚ}
    (hd : 0 ≤ d) : 0 ≤ getD a k d := by
  unfold getD
  cases hl : lookupQ a k with
  | none => simpa using hd
  | some v => simpa using hnn _ (lookupQ_mem hl)

theorem nonneg_setval {a : Alloc} (hnn : ∀ p ∈ a, 0 ≤ p.2) (k : String) {v : ℚ}
    (hv : 0 ≤ v) : ∀ p ∈ setval a k v, 0 ≤ p.2 := by
  induction a with
  | nil =>
    intro p hp
    simp [setval] at hp
    simp [hp, hv]
  | cons q rest ih =>
    obtain ⟨k2, v2⟩ := q
    intro p hp
    by_cases hk : k = k2
    · simp [setval, hk] at hp
      rcases hp with hp | hp
      · simp [hp, hv]
      · exact hnn p (List.mem_cons_of_mem _ hp)
    · simp only [setval, if_neg hk, List.mem_cons] at hp
      rcases hp with hp | hp
      · exact hp ▸ hnn (k2, v2) (List.mem_cons_self _ _)
      · exact ih (fun q hq => hnn q (List.mem_cons_of_mem _ hq)) p hp

theorem nonneg_ensure {a : Alloc} (hnn : ∀ p ∈ a, 0 ≤ p.2) (name : String) :
    ∀ p ∈ ensureKey a name, 0 ≤ p.2 := by
  unfold ensureKey
  split_ifs
  · exact hnn
  · intro p hp
    rcases List.mem_append.mp hp with hp | hp
    · exact hnn p hp
    · simp at hp
      simp [hp]

theorem nonneg_applyAll {ks : List String} {f : String → ℚ} {a : Alloc}
    (hnn : ∀ p ∈ a, 0 ≤ p.2) (hf : ∀ k ∈ ks, 0 ≤ f k) :
    ∀ p ∈ applyAll ks f a, 0 ≤ p.2 := by
  induction ks generalizing a with
  | nil => exact hnn
  | cons k ks ih =>
    rw [applyAll_cons]
    exact ih (nonneg_setval hnn k (hf k (List.mem_cons_self _ _)))
      (fun k2 hk2 => hf k2 (List.mem_cons_of_mem _ hk2))

theorem roundHalfUp1_nonneg {x : ℚ} (h : 0 ≤ x) : 0 ≤ roundHalfUp1 x := by
  unfold roundHalfUp1
  rw [if_pos h, Rat.mkRat_eq_div]
  have harg : (0 : ℚ) ≤ qadd (qmul 10 x) (mkRat 1 2) := by
    rw [qadd_eq, qmul_eq, Rat.mkRat_eq_div]
    push_cast
    linarith
  have hfl : (0 : ℤ) ≤ ⌊qadd (qmul 10 x) (mkRat 1 2)⌋ := Int.le_floor.mpr (by simpa using harg)
  have : (0 : ℚ) ≤ (⌊qadd (qmul 10 x) (mkRat 1 2)⌋ : ℚ) := by exact_mod_cast hfl
  positivity

theorem roundHalfUp1_tenths (z : ℤ) : roundHalfUp1 ((z : ℚ)/10) = (z : ℚ)/10 := by
  unfold roundHalfUp1
  by_cases h : (0 : ℚ) ≤ (z : ℚ)/10
  · rw [if_pos h]
    have harg : qadd (qmul 10 ((z : ℚ)/10)) (mkRat 1 2) = (z : ℚ) + 1/2 := by
      rw [qadd_eq, qmul_eq, Rat.mkRat_eq_div]
      push_cast
      ring
    rw [harg]
    have hfl : ⌊(z : ℚ) + 1/2⌋ = z := by
      rw [add_comm, Int.floor_add_int]
      norm_num
    rw [hfl, Rat.mkRat_eq_div]
    norm_num
  · rw [if_neg h]
    have harg : qadd (qmul 10 (-((z : ℚ)/10))) (mkRat 1 2) = ((-z : ℤ) : ℚ) + 1/2 := by
      rw [qadd_eq, qmul_eq, Rat.mkRat_eq_div]
      push_cast
      ring
    rw [harg]
    have hfl : ⌊((-z : ℤ) : ℚ) + 1/2⌋ = -z := by
      rw [add_comm, Int.floor_add_int]
      norm_num
    rw [hfl, Rat.mkRat_eq_div]
    push_cast
    ring

theorem clampVal_le (a : Alloc) (fixed : List String) (value : ℚ) :
    clampVal a fixed value ≤ 100 - lockedSum a fixed := by
  unfold clampVal
  rw [qmin_eq, qsub_eq]
  exact min_le_right _ _

theorem clampVal_nonneg (a : Alloc) (fixed : List String) (value : ℚ)
    (h : 0 ≤ 100 - lockedSum a fixed) : 0 ≤ clampVal a fixed value := by
  unfold clampVal
  rw [qmin_eq, qmax_eq, qsub_eq]
  exact le_min (le_max_left _ _) h

theorem name_not_mem_unlockedOthers (a : Alloc) (fixed : List String) (name : String) :
    name ∉ unlockedOthers a fixed name := by
  intro hmm
  have := (List.mem_filter.mp hmm).2
  simp at this

theorem redistributeStep_nil (a1 : Alloc) (r : ℚ) :
    redistributeStep a1 [] r = a1 := rfl

theorem nonneg_redistributeStep {a1 : Alloc} (U : List String) {rem : ℚ}
    (hnn1 : ∀ p ∈ a1, 0 ≤ p.2) (hrem : 0 ≤ rem) :
    ∀ p ∈ redistributeStep a1 U rem, 0 ≤ p.2 := by
  unfold redistributeStep
  split_ifs with h1 h2
  · exact hnn1
  · refine nonneg_applyAll hnn1 ?_
    intro k _
    rw [qmul_eq, qdiv_eq]
    refine mul_nonneg (nonneg_getD hnn1 k le_rfl) (div_nonneg hrem h2.le)
  · refine nonneg_applyAll hnn1 ?_
    intro k _
    rw [qdiv_eq]
    exact div_nonneg hrem (by positivity)

theorem qsum_singleton (x : ℚ) : qsum [x] = x := by
  rw [qsum_eq]
  simp

theorem filter_unlocked_singleton {l : List String} {fixed : List String}
    {name : String} (h : l.Nodup) (hm : name ∈ l) (hnf : name ∉ fixed)
    (he : l.filter (fun k => decide (k ∉ fixed ∧ k ≠ name)) = []) :
    l.filter (fun k => decide (k ∉ fixed)) = [name] := by
  induction l with
  | nil => cases hm
  | cons a l ih =>
    have hall := List.filter_eq_nil_iff.mp he
    by_cases ha : a = name
    · subst ha
      rw [List.filter_cons]
      rw [if_pos (by simp [hnf])]
      have htl : l.filter (fun k => decide (k ∉ fixed)) = [] := by
        refine List.filter_eq_nil_iff.mpr ?_
        intro b hb
        simp only [decide_eq_true_eq]
        intro hbf
        have hbne : b ≠ a := fun e => (List.nodup_cons.mp h).1 (e ▸ hb)
        exact (hall b (List.mem_cons_of_mem _ hb)) (by simp [hbf, hbne])
      rw [htl]
    · have haf : a ∈ fixed := by
        by_contra hc
        exact (hall a (List.mem_cons_self _ _)) (by simp [hc, ha])
      rw [List.filter_cons, if_neg (by simp [haf])]
      refine ih (List.nodup_cons.mp h).2 ?_ ?_
      · rcases List.mem_cons.mp hm with h1 | h1
        · exact absurd h1.symm ha
        · exact h1
      · rw [List.filter_cons, if_neg (by simp [haf])] at he
        exact he

/-- C5 (amended).  The claim fails on the code as stated (see the
counterexample: after drift and a paired lock the locked total can
exceed 100 and `update_allocation` then writes a negative value).  For
an unlocked `name`, under the preconditions that the current values are
all nonnegative and that `locked_sum` is at most 100 and is a whole
multiple of 0.1, the call keeps `allocations[name]` inside
`[0, 100 - locked_sum]` and keeps every value nonnegative. -/
theorem c5_clamping_amended (g : AllocationGroup) (name : String) (value : ℚ)
    (hk : (keys g.allocations).Nodup) (hf : g.fixed_items.Nodup)
    (hnf : name ∉ g.fixed_items)
    (hnn : ∀ p ∈ g.allocations, 0 ≤ p.2)
    (hls : lockedSum g.allocations g.fixed_items ≤ 100)
    (htenth : ∃ z : ℤ, lockedSum g.allocations g.fixed_items = mkRat z 10) :
    (0 ≤ getD (updateAllocation g name value).allocations name 0
      ∧ getD (updateAllocation g name value).allocations name 0
          ≤ 100 - lockedSum g.allocations g.fixed_items)
    ∧ ∀ p ∈ (updateAllocation g name value).allocations, 0 ≤ p.2 := by
  obtain ⟨z, hz⟩ := htenth
  have havail : 0 ≤ 100 - lockedSum g.allocations g.fixed_items := by linarith
  by_cases hempty : g.allocations = []
  · have hls0 : lockedSum g.allocations g.fixed_items = 0 := by
      rw [hempty, lockedSum_eq]
      simp [getD, lookupQ]
    unfold updateAllocation
    rw [if_neg hnf, if_pos hempty]
    refine ⟨⟨?_, ?_⟩, ?_⟩
    · simp [getD, lookupQ]
    · simp [getD, lookupQ, hls0]
    · intro p hp
      simp at hp
      simp [hp]
  · have hmem0 : hasKey (ensureKey g.allocations name) name = true :=
      hasKey_ensure_self g.allocations name
    have hk0 : (keys (ensureKey g.allocations name)).Nodup :=
      keys_ensure_nodup g.allocations name hk
    have hls0 : lockedSum (ensureKey g.allocations name) g.fixed_items
        = lockedSum g.allocations g.fixed_items :=
      lockedSum_ensure g.allocations g.fixed_items name hnf
    have hnn0 : ∀ p ∈ ensureKey g.allocations name, 0 ≤ p.2 := nonneg_ensure hnn name
    have hv0 : 0 ≤ clampVal (ensureKey g.allocations name) g.fixed_items value :=
      clampVal_nonneg _ _ _ (by rw [hls0]; exact havail)
    have hvle : clampVal (ensureKey g.allocations name) g.fixed_items value
        ≤ 100 - lockedSum g.allocations g.fixed_items := by
      have := clampVal_le (ensureKey g.allocations name) g.fixed_items value
      rw [hls0] at this
      exact this
    have hnn1 : ∀ p ∈ setval (ensureKey g.allocations name) name
        (clampVal (ensureKey g.allocations name) g.fixed_items value), 0 ≤ p.2 :=
      nonneg_setval hnn0 name hv0
    have hgd : getD (setval (ensureKey g.allocations name) name
        (clampVal (ensureKey g.allocations name) g.fixed_items value)) name 0
        = clampVal (ensureKey g.allocations name) g.fixed_items value :=
      getD_setval_self _ _ _ 0
    have hmem1 : hasKey (setval (ensureKey g.allocations name) name
        (clampVal (ensureKey g.allocations name) g.fixed_items value)) name = true := by
      rw [hasKey_setval]
      simp
    have hk1 : (keys (setval (ensureKey g.allocations name) name
        (clampVal (ensureKey g.allocations name) g.fixed_items value))).Nodup := by
      rw [keys_setval_present _ _ _ hmem0]
      exact hk0
    have hls1 : lockedSum (setval (ensureKey g.allocations name) name
        (clampVal (ensureKey g.allocations name) g.fixed_items value)) g.fixed_items
        = lockedSum g.allocations g.fixed_items := by
      rw [lockedSum_setval _ _ _ hnf, hls0]
    have hUs := unlockedOthers_setval (ensureKey g.allocations name) name
      (clampVal (ensureKey g.allocations name) g.fixed_items value)
      g.fixed_items name hmem0
    by_cases htrig : mkRat 1 100 < qabs (qsub (getD (ensureKey g.allocations name) name 0)
        (clampVal (ensureKey g.allocations name) g.fixed_items value))
    · unfold updateAllocation
      rw [if_neg hnf, if_neg hempty, if_pos htrig]
      simp only
      have hrem : 0 ≤ qsub (qsub 100 (lockedSum (ensureKey g.allocations name)
          g.fixed_items)) (clampVal (ensureKey g.allocations name) g.fixed_items value) := by
        rw [qsub_eq, qsub_eq, hls0]
        linarith
      by_cases hU : unlockedOthers (ensureKey g.allocations name) g.fixed_items name = []
      · rw [hU, redistributeStep_nil]
        by_cases hdrift : mkRat 1 10 < qabs (qsub (sumAlloc
            (setval (ensureKey g.allocations name) name
              (clampVal (ensureKey g.allocations name) g.fixed_items value))) 100)
        · by_cases hpos : 0 < unlockedValsSum
              (setval (ensureKey g.allocations name) name
                (clampVal (ensureKey g.allocations name) g.fixed_items value)) g.fixed_items
          · have hkeys1 : unlockedKeys (setval (ensureKey g.allocations name) name
                (clampVal (ensureKey g.allocations name) g.fixed_items value))
                g.fixed_items = [name] := by
              refine filter_unlocked_singleton hk1 ?_ hnf ?_
              · rw [← hasKey_iff_mem_keys]
                exact hmem1
              · exact hUs.trans hU
            have hval : unlockedValsSum (setval (ensureKey g.allocations name) name
                (clampVal (ensureKey g.allocations name) g.fixed_items value))
                g.fixed_items
                = clampVal (ensureKey g.allocations name) g.fixed_items value := by
              unfold unlockedValsSum
              rw [hkeys1]
              simp only [List.map_cons, List.map_nil]
              rw [qsum_singleton, hgd]
            have hvpos : 0 < clampVal (ensureKey g.allocations name) g.fixed_items value := by
              rw [hval] at hpos
              exact hpos
            unfold normalizeAlloc
            rw [if_pos hdrift, if_pos hpos, hkeys1]
            have hnewval : getD (applyAll [name]
                (fun k => roundHalfUp1 (qmul (getD (setval (ensureKey g.allocations name)
                    name (clampVal (ensureKey g.allocations name) g.fixed_items value)) k 0)
                  (qdiv (qsub 100 (lockedSum (setval (ensureKey g.allocations name) name
                      (clampVal (ensureKey g.allocations name) g.fixed_items value))
                      g.fixed_items))
                    (unlockedValsSum (setval (ensureKey g.allocations name) name
                      (clampVal (ensureKey g.allocations name) g.fixed_items value))
                      g.fixed_items))))
                (setval (ensureKey g.allocations name) name
                  (clampVal (ensureKey g.allocations name) g.fixed_items value)))
                name 0
                = 100 - lockedSum g.allocations g.fixed_items := by
              rw [getD_applyAll_mem _ _ 0 (by simp) (by simp)]
              rw [hgd, hval, hls1]
              have hmdc : qmul (clampVal (ensureKey g.allocations name) g.fixed_items value)
                  (qdiv (qsub 100 (lockedSum g.allocations g.fixed_items))
                    (clampVal (ensureKey g.allocations name) g.fixed_items value))
                  = qsub 100 (lockedSum g.allocations g.fixed_items) := by
                rw [qmul_eq, qdiv_eq, mul_comm, div_mul_cancel₀ _ hvpos.ne']
              rw [hmdc]
              have hq : qsub 100 (lockedSum g.allocations g.fixed_items)
                  = ((1000 - z : ℤ) : ℚ)/10 := by
                rw [qsub_eq, hz, Rat.mkRat_eq_div]
                push_cast
                ring
              rw [hq, roundHalfUp1_tenths, ← hq, qsub_eq]
            refine ⟨⟨?_, ?_⟩, ?_⟩
            · rw [hnewval]
              exact havail
            · rw [hnewval]
            · refine nonneg_applyAll hnn1 ?_
              intro k _
              refine roundHalfUp1_nonneg ?_
              rw [qmul_eq, qdiv_eq]
              refine mul_nonneg (nonneg_getD hnn1 k le_rfl) (div_nonneg ?_ ?_)
              · rw [qsub_eq, hls1]
                exact havail
              · rw [hval] at hpos ⊢
                exact hvpos.le
          · unfold normalizeAlloc
            rw [if_pos hdrift, if_neg hpos]
            exact ⟨⟨by rw [hgd]; exact hv0, by rw [hgd]; exact hvle⟩, hnn1⟩
        · rw [normalize_of_total _ hdrift]
          exact ⟨⟨by rw [hgd]; exact hv0, by rw [hgd]; exact hvle⟩, hnn1⟩
      · have h100 := redistribute_sum_100
          (setval (ensureKey g.allocations name) name
            (clampVal (ensureKey g.allocations name) g.fixed_items value))
          g.fixed_items name hk1 hf hnf hmem1 (by rw [hUs]; exact hU)
        rw [hUs, hls1, hgd] at h100
        have hnmU : name ∉ unlockedOthers (ensureKey g.allocations name)
            g.fixed_items name := name_not_mem_unlockedOthers _ _ _
        have hstep : sumAlloc (redistributeStep
            (setval (ensureKey g.allocations name) name
              (clampVal (ensureKey g.allocations name) g.fixed_items value))
            (unlockedOthers (ensureKey g.allocations name) g.fixed_items name)
            (qsub (qsub 100 (lockedSum (ensureKey g.allocations name) g.fixed_items))
              (clampVal (ensureKey g.allocations name) g.fixed_items value))) = 100 := by
          rw [hls0]
          exact h100
        rw [normalize_of_sum_100 _ hstep]
        refine ⟨⟨?_, ?_⟩, ?_⟩
        · rw [getD_redistributeStep_not_mem _ _ _ 0 hnmU, hgd]
          exact hv0
        · rw [getD_redistributeStep_not_mem _ _ _ 0 hnmU, hgd]
          exact hvle
        · refine nonneg_redistributeStep _ hnn1 ?_
          rw [qsub_eq, qsub_eq, hls0]
          linarith
    · unfold updateAllocation
      rw [if_neg hnf, if_neg hempty, if_neg htrig]
      exact ⟨⟨by rw [hgd]; exact hv0, by rw [hgd]; exact hvle⟩, hnn1⟩

/-- The locked-drift state used to refute C5 as stated: reachable from
the empty group by `update_allocation` and `toggle_fixed` calls.  After
redistribution-free sub-threshold drift of C up to 14/128 and of B down
by 13/128, the paired lock of B and C (which skips the 99.9 capacity
check) leaves all three items locked with total 100 + 1/128 > 100. -/
def driftLockedState : AllocationGroup :=
  toggleFixed
    ((List.range 13).foldl
      (fun g k => updateAllocation g "B" (qsub 50 (mkRat (k + 1 : ℕ) 128)))
      ((List.range 14).foldl
        (fun g k => updateAllocation g "C" (mkRat (k + 1 : ℕ) 128))
        (toggleFixed
          (updateAllocation
            (updateAllocation (updateAllocation ⟨[], []⟩ "A" 50) "B" 50)
            "C" (mkRat 1 128))
          "A" true)))
    "B" true

/-- Counterexample to C5 as stated: at the reachable state
`driftLockedState` (locked total 100.0078125 > 100), the call
`update_allocation("D", 0)` stores the negative value -1/128, so
neither `allocations[name] ∈ [0, 100 - locked_sum]` (an empty interval
here) nor `every value ≥ 0` holds after the call. -/
theorem c5_counterexample :
    getD (updateAllocation driftLockedState "D" 0).allocations "D" 0 < 0 := by
  decide

/-- Witness for the amended C5: a three-item group with C locked at 20
(a multiple of 0.1, locked sum ≤ 100); updating A to 90 clamps to the
available 80 and keeps every value nonnegative. -/
theorem c5_witness :
    (0 ≤ getD (updateAllocation ⟨[("A", 50), ("B", 30), ("C", 20)], ["C"]⟩
          "A" 90).allocations "A" 0
      ∧ getD (updateAllocation ⟨[("A", 50), ("B", 30), ("C", 20)], ["C"]⟩
          "A" 90).allocations "A" 0
        ≤ 100 - lockedSum [("A", 50), ("B", 30), ("C", 20)] ["C"])
    ∧ ∀ p ∈ (updateAllocation ⟨[("A", 50), ("B", 30), ("C", 20)], ["C"]⟩
        "A" 90).allocations, 0 ≤ p.2 :=
  c5_clamping_amended ⟨[("A", 50), ("B", 30), ("C", 20)], ["C"]⟩ "A" 90
    (by decide) (by decide) (by decide) (by decide) (by decide) ⟨200, by decide⟩

/-! Claims C3 and C10: the paired lock. -/

theorem mem_setInsert_self (s : List String) (k : String) : k ∈ setInsert s k := by
  unfold setInsert
  split_ifs with h
  · exact h
  · simp

theorem mem_setInsert_of_mem (s : List String) (k : String) {n : String}
    (h : n ∈ s) : n ∈ setInsert s k := by
  unfold setInsert
  split_ifs
  · exact h
  · simp [h]

theorem pair_filter_headD {l : List String} {X Y : String} (hlen : l.length = 2)
    (hX : X ∈ l) (hY : Y ∈ l) (hXY : X ≠ Y) :
    (l.filter (fun k => decide (k ≠ X))).headD "" = Y := by
  obtain ⟨a, b, rfl⟩ := List.length_eq_two.mp hlen
  simp only [List.mem_cons, List.not_mem_nil, or_false] at hX hY
  rcases hX with rfl | rfl
  · rcases hY with rfl | rfl
    · exact absurd rfl hXY
    · simp [List.filter_cons, hXY.symm]
  · rcases hY with rfl | rfl
    · simp [List.filter_cons, hXY.symm]
    · exact absurd rfl hXY

/-- The pair-lock branch of `toggle_fixed`: with a known name, the
capacity check passing and exactly two unlocked items including `name`,
only `fixed_items` changes, to the set with both of them added. -/
theorem toggleFixed_pair_branch (g : AllocationGroup) (X : String)
    (hkm : hasKey g.allocations X = true)
    (hcap : qadd (lockedSum g.allocations g.fixed_items) (getD g.allocations X 0)
      ≤ mkRat 999 10)
    (hpair : (unlockedKeys g.allocations g.fixed_items).length = 2
      ∧ X ∈ unlockedKeys g.allocations g.fixed_items) :
    toggleFixed g X true = { g with fixed_items := (setInsert (setInsert g.fixed_items X)
      (((unlockedKeys g.allocations g.fixed_items).filter
        (fun k => decide (k ≠ X))).headD "")) } := by
  unfold toggleFixed
  rw [if_neg (not_not_intro hkm), if_pos rfl, if_neg (not_lt.mpr hcap), if_pos hpair]

/-- C3 (amended).  The claim fails as stated because the 99.9 capacity
check runs before the pair-lock special case (see the counterexample);
provided locking `X` passes that check
(`locked_sum + allocations[X] ≤ 99.9`), a group with exactly two
unlocked items X and Y ends with both X and Y in `fixed_items` after
`toggle_fixed(X, True)`. -/
theorem c3_paired_lock_amended (g : AllocationGroup) (X Y : String)
    (hlen : (unlockedKeys g.allocations g.fixed_items).length = 2)
    (hX : X ∈ unlockedKeys g.allocations g.fixed_items)
    (hY : Y ∈ unlockedKeys g.allocations g.fixed_items)
    (hXY : X ≠ Y)
    (hcap : qadd (lockedSum g.allocations g.fixed_items) (getD g.allocations X 0)
      ≤ mkRat 999 10) :
    X ∈ (toggleFixed g X true).fixed_items
      ∧ Y ∈ (toggleFixed g X true).fixed_items := by
  have hkm : hasKey g.allocations X = true :=
    (hasKey_iff_mem_keys _ _).mpr (List.mem_filter.mp hX).1
  rw [toggleFixed_pair_branch g X hkm hcap ⟨hlen, hX⟩]
  simp only
  rw [pair_filter_headD hlen hX hY hXY]
  exact ⟨mem_setInsert_of_mem _ _ (mem_setInsert_self _ _), mem_setInsert_self _ _⟩

/-- Witness for the amended C3: locking P in an unlocked P/Q group
locks Q as well. -/
theorem c3_witness :
    "P" ∈ (toggleFixed ⟨[("P", 60), ("Q", 40)], []⟩ "P" true).fixed_items
      ∧ "Q" ∈ (toggleFixed ⟨[("P", 60), ("Q", 40)], []⟩ "P" true).fixed_items :=
  c3_paired_lock_amended ⟨[("P", 60), ("Q", 40)], []⟩ "P" "Q"
    (by decide) (by decide) (by decide) (by decide) (by decide)

/-- Counterexample to C3 as stated: the state reached from the empty
group by `update_allocation("X", 7)` (seeding X at 100) and
`update_allocation("Y", 0)` has exactly two unlocked items, yet
`toggle_fixed("X", True)` is rejected by the 99.9 capacity check
(0 + 100 > 99.9) and locks nothing. -/
theorem c3_counterexample :
    ((unlockedKeys
        (updateAllocation (updateAllocation ⟨[], []⟩ "X" 7) "Y" 0).allocations
        (updateAllocation (updateAllocation ⟨[], []⟩ "X" 7) "Y" 0).fixed_items).length = 2)
    ∧ (toggleFixed (updateAllocation (updateAllocation ⟨[], []⟩ "X" 7) "Y" 0)
        "X" true).fixed_items = [] := by
  decide

/-- C10 (amended).  As for C3, the claim fails as stated because the
99.9 capacity check runs first (see the counterexample); provided
`locked_sum + allocations[name] ≤ 99.9`, the pair-lock branch adds both
unlocked items to `fixed_items` and returns immediately: the allocation
map is returned exactly unchanged — no redistribution or normalization
runs — even though the locked total may thereby reach 100. -/
theorem c10_paired_lock_frame_amended (g : AllocationGroup) (X Y : String)
    (hlen : (unlockedKeys g.allocations g.fixed_items).length = 2)
    (hX : X ∈ unlockedKeys g.allocations g.fixed_items)
    (hY : Y ∈ unlockedKeys g.allocations g.fixed_items)
    (hXY : X ≠ Y)
    (hcap : qadd (lockedSum g.allocations g.fixed_items) (getD g.allocations X 0)
      ≤ mkRat 999 10) :
    (toggleFixed g X true).allocations = g.allocations
      ∧ (toggleFixed g X true).fixed_items
          = setInsert (setInsert g.fixed_items X) Y := by
  have hkm : hasKey g.allocations X = true :=
    (hasKey_iff_mem_keys _ _).mpr (List.mem_filter.mp hX).1
  rw [toggleFixed_pair_branch g X hkm hcap ⟨hlen, hX⟩]
  simp only
  rw [pair_filter_headD hlen hX hY hXY]
  exact ⟨trivial, rfl⟩

/-- Witness for the amended C10: pair-locking X in a 50/50 group leaves
both values at exactly 50 while the locked total becomes 100. -/
theorem c10_witness :
    (toggleFixed ⟨[("X", 50), ("Y", 50)], []⟩ "X" true).allocations
        = [("X", 50), ("Y", 50)]
      ∧ (toggleFixed ⟨[("X", 50), ("Y", 50)], []⟩ "X" true).fixed_items
        = ["X", "Y"] := by
  have h := c10_paired_lock_frame_amended ⟨[("X", 50), ("Y", 50)], []⟩ "X" "Y"
    (by decide) (by decide) (by decide) (by decide) (by decide)
  refine ⟨h.1, ?_⟩
  rw [h.2]
  decide

/-- Counterexample to C10 as stated: with C locked at 50 and the two
unlocked items X = 50 and Y = 0, locking X fails the capacity check
(50 + 50 > 99.9) and `toggle_fixed("X", True)` adds neither item. -/
theorem c10_counterexample :
    ((unlockedKeys ([("C", 50), ("X", 50), ("Y", 0)] : Alloc) ["C"]).length = 2)
    ∧ (toggleFixed ⟨[("C", 50), ("X", 50), ("Y", 0)], ["C"]⟩
        "X" true).fixed_items = ["C"] := by
  decide

/-! Claim C4: the locked-remainder scenario. -/

/-- C4.  Locked-remainder scenario: with allocations Stocks 50 /
Bonds 50 and Bonds locked, `update_allocation("Stocks", 30)` leaves
the whole state unchanged (the request cannot take effect because the
one updated item is the only unlocked one; normalization restores
Stocks to 50). -/
theorem c4_locked_remainder_scenario :
    updateAllocation ⟨[("Stocks", 50), ("Bonds", 50)], ["Bonds"]⟩ "Stocks" 30
      = ⟨[("Stocks", 50), ("Bonds", 50)], ["Bonds"]⟩ := by
  decide

/-! Claim C6: the order of `get_all_nodes`. -/

/-- Proper descendant of a node: a direct child, or a descendant of a
direct child. -/
inductive ProperDesc : Node → Node → Prop where
  | child {x n : Node} : x ∈ Node.children n → ProperDesc x n
  | nest {x c n : Node} : c ∈ Node.children n → ProperDesc x c → ProperDesc x n

theorem collect_eq (n : Node) :
    collect n = n.children ++ collectList n.children := by
  cases n
  rfl

theorem mem_collectList {cs : List Node} {x : Node} :
    x ∈ collectList cs ↔ ∃ c ∈ cs, x ∈ collect c := by
  induction cs with
  | nil => simp [collectList]
  | cons c cs ih =>
    simp only [collectList, List.mem_append, ih]
    constructor
    · rintro (h | ⟨c2, hc2, hx⟩)
      · exact ⟨c, List.mem_cons_self _ _, h⟩
      · exact ⟨c2, List.mem_cons_of_mem _ hc2, hx⟩
    · rintro ⟨c2, hc2, hx⟩
      rcases List.mem_cons.mp hc2 with rfl | hc2
      · exact Or.inl hx
      · exact Or.inr ⟨c2, hc2, hx⟩

theorem properDesc_mem_collect {x n : Node} (h : ProperDesc x n) :
    x ∈ collect n := by
  induction h with
  | child hm =>
    rw [collect_eq]
    exact List.mem_append.mpr (Or.inl hm)
  | nest hm _ ih =>
    rw [collect_eq]
    exact List.mem_append.mpr (Or.inr (mem_collectList.mpr ⟨_, hm, ih⟩))

theorem mem_collect_properDesc :
    ∀ (k : Nat) (n x : Node), sizeOf n ≤ k → x ∈ collect n → ProperDesc x n := by
  intro k
  induction k with
  | zero =>
    intro n x hs _
    exfalso
    cases n
    simp at hs
  | succ k ih =>
    intro n x hs hm
    rw [collect_eq] at hm
    rcases List.mem_append.mp hm with hm | hm
    · exact ProperDesc.child hm
    · obtain ⟨c, hc, hxc⟩ := mem_collectList.mp hm
      have hlt : sizeOf c < sizeOf n := by
        cases n with
        | mk nm t cs al =>
          have h1 : sizeOf c < sizeOf cs := List.sizeOf_lt_of_mem hc
          simp only [Node.mk.sizeOf_spec]
          omega
      exact ProperDesc.nest hc (ih c x (by omega) hxc)

/-- C6 (amended).  `get_all_nodes` does not return a pre-order listing
(see the counterexample: all direct children come first, then the
recursive listings of each child's subtree); what does hold is that its
members are exactly the proper descendants of the root — every node
except the root, with no stray entries. -/
theorem c6_getAllNodes_amended (root : Node) (x : Node) :
    x ∈ getAllNodes root ↔ ProperDesc x root :=
  ⟨fun h => mem_collect_properDesc (sizeOf root) root x le_rfl h,
    properDesc_mem_collect⟩

mutual

/-- Pre-order listing of all nodes below a node, excluding the node
itself, as the spec describes `get_all_nodes`: each node appears
immediately before the nodes of its own subtree, sibling subtrees
consecutively in order. -/
def preorderNodes : Node → List Node
  | .mk _ _ cs _ => preorderList cs

def preorderList : List Node → List Node
  | [] => []
  | c :: cs => c :: (preorderNodes c ++ preorderList cs)

end

/-- Counterexample to C6 as stated: on the tree with children c1 and c2
under the root and a grandchild g under c1, the code returns
c1, c2, g — c1 is immediately followed by its sibling c2, not by its
own subtree {g} — whereas a pre-order traversal returns c1, g, c2. -/
theorem c6_counterexample :
    (getAllNodes (.mk rootName .PORTFOLIO_ROOT
        [.mk "c1" .STOCK [.mk "g" .STOCK_SYMBOL [] ⟨[], []⟩] ⟨[("g", 100)], []⟩,
         .mk "c2" .ETF [] ⟨[], []⟩]
        ⟨[("c1", 50), ("c2", 50)], []⟩)).map Node.name = ["c1", "c2", "g"]
    ∧ (preorderNodes (.mk rootName .PORTFOLIO_ROOT
        [.mk "c1" .STOCK [.mk "g" .STOCK_SYMBOL [] ⟨[], []⟩] ⟨[("g", 100)], []⟩,
         .mk "c2" .ETF [] ⟨[], []⟩]
        ⟨[("c1", 50), ("c2", 50)], []⟩)).map Node.name = ["c1", "g", "c2"]
    ∧ (["c1", "c2", "g"] : List String) ≠ ["c1", "g", "c2"] := by
  decide

/-! Claim C7: weight composition. -/

/-- Whether a path resolves fully: every segment is found walking down
from the current node. -/
def resolves (cur : Node) : List String → Bool
  | [] => true
  | s :: rest =>
    match findChild cur s with
    | none => false
    | some c => resolves c rest

/-- The spec's description of `get_total_weight` as a product: for each
segment in order, the segment's effective local allocation divided by
100, composed down the walk. -/
def specWeightFactors (cur : Node) : List String → ℚ
  | [] => 1
  | s :: rest =>
    qmul (qdiv (effSegmentAlloc cur s) 100)
      (match findChild cur s with
       | none => 1
       | some c => specWeightFactors c rest)

theorem totalWeightGo_spec (cur : Node) (path : List String) (t : ℚ)
    (h : resolves cur path = true) :
    totalWeightGo cur path t = qmul t (specWeightFactors cur path) := by
  induction path generalizing cur t with
  | nil =>
    simp only [totalWeightGo, specWeightFactors]
    rw [qmul_eq, mul_one]
  | cons s rest ih =>
    cases hfc : findChild cur s with
    | none => simp [resolves, hfc] at h
    | some c =>
      have hres : resolves c rest = true := by
        simpa [resolves, hfc] using h
      simp only [totalWeightGo, specWeightFactors, hfc]
      rw [ih c _ hres]
      rw [qmul_eq, qmul_eq, qmul_eq, qmul_eq, qdiv_eq, qdiv_eq]
      ring

/-- C7.  Weight composition: for a fully resolving path,
`get_total_weight` equals 100 times the product, over the path's
segments in order, of each segment's local allocation divided by 100,
with the equal-share fallback `100 / sibling count` substituted when
the recorded allocation is missing or 0. -/
theorem c7_weight_composition (root : Node) (path : List String)
    (h : resolves root (stripRoot root.name path) = true) :
    getTotalWeight root path
      = qmul 100 (specWeightFactors root (stripRoot root.name path)) := by
  unfold getTotalWeight
  exact totalWeightGo_spec root _ 100 h

/-- Witness for C7: the nested tree A (50%) → B (50%) → C (50%) gives
`get_total_weight(["A","B","C"]) = 12.5`. -/
theorem c7_witness :
    getTotalWeight
      (.mk rootName .PORTFOLIO_ROOT
        [.mk "A" .STOCK
          [.mk "B" .STOCK_SYMBOL
            [.mk "C" .STOCK_SYMBOL [] ⟨[], []⟩]
            ⟨[("C", 50)], []⟩]
          ⟨[("B", 50)], []⟩]
        ⟨[("A", 50)], []⟩)
      ["A", "B", "C"] = mkRat 25 2 := by
  rw [c7_weight_composition _ _ (by decide)]
  decide

/-! Claim C8: rejected removals leave the tree unchanged. -/

/-- C8.  `remove_asset` returns false and leaves the tree unchanged in
each rejection case: empty path; parent path that does not resolve;
last segment locked in the parent's group; last segment not a current
child. -/
theorem c8_locked_removal_rejection (root : Node) (path : List String) :
    (removeAsset root [] = (false, root))
    ∧ (path ≠ [] → goPath root (stripRoot root.name path.dropLast) = none →
        removeAsset root path = (false, root))
    ∧ (∀ parent : Node, path ≠ [] →
        goPath root (stripRoot root.name path.dropLast) = some parent →
        path.getLastD "" ∈ parent.alloc.fixed_items →
        removeAsset root path = (false, root))
    ∧ (∀ parent : Node, path ≠ [] →
        goPath root (stripRoot root.name path.dropLast) = some parent →
        path.getLastD "" ∉ parent.alloc.fixed_items →
        findChild parent (path.getLastD "") = none →
        removeAsset root path = (false, root)) := by
  refine ⟨by unfold removeAsset; rw [if_pos rfl], ?_, ?_, ?_⟩
  · intro hne hgo
    unfold removeAsset
    rw [if_neg hne]
    simp only [hgo]
  · intro parent hne hgo hfix
    unfold removeAsset
    rw [if_neg hne]
    simp only [hgo]
    rw [if_pos hfix]
  · intro parent hne hgo hfix hfc
    unfold removeAsset
    rw [if_neg hne]
    simp only [hgo]
    rw [if_neg hfix]
    have hrc : removeChildNode parent (path.getLastD "") = none := by
      unfold removeChildNode
      rw [hfc]
      simp
    simp only [hrc]

/-- Witness for C8: removing the locked child Stocks is rejected and
the tree is returned unchanged. -/
theorem c8_witness :
    removeAsset
      (.mk rootName .PORTFOLIO_ROOT
        [.mk "Stocks" .STOCK [] ⟨[], []⟩]
        ⟨[("Stocks", 100)], ["Stocks"]⟩)
      ["Stocks"]
      = (false,
        .mk rootName .PORTFOLIO_ROOT
          [.mk "Stocks" .STOCK [] ⟨[], []⟩]
          ⟨[("Stocks", 100)], ["Stocks"]⟩) :=
  (c8_locked_removal_rejection
    (.mk rootName .PORTFOLIO_ROOT
      [.mk "Stocks" .STOCK [] ⟨[], []⟩]
      ⟨[("Stocks", 100)], ["Stocks"]⟩)
    ["Stocks"]).2.2.1
    (.mk rootName .PORTFOLIO_ROOT
      [.mk "Stocks" .STOCK [] ⟨[], []⟩]
      ⟨[("Stocks", 100)], ["Stocks"]⟩)
    (by decide) (by rfl) (by decide)

end Portfolio
